import Mathlib

/-
Verification development for the merkledb trie-view layer and the pebble
database wrapper of this repository.

Modelling conventions, used throughout:
* Byte slices are `List Nat`; Go's `bytes.Compare` is `bytesCompare` below.
* The trie is modelled at the granularity of tokens.  The source measures key
  lengths in bits and always advances in multiples of `tokenSize`; here a `Key`
  is its list of tokens, so every `x + t.tokenSize` of the source becomes
  `x + 1` and `ToKey` reads one token per byte (the byte-token configuration).
* Go maps are association lists with first-match lookup; `nodeChildren` is a
  nil-able map (`Option ChildMap`), `nil` being `none`.  Reads of a nil map
  behave like reads of an empty map, exactly as in Go.
* Errors are the `Err` inductive; fallible functions return `Except`.
  Functions that mutate the view take and return a `TrieView` record.
* The `invalidated` flag can be flipped concurrently by an ancestor commit.
  The flag is monotone (never cleared), so a function that re-checks the flag
  after touching ancestor state takes an extra `Bool` argument standing for
  "the view became invalidated during that window"; the re-check reads
  `t.invalidated || thatBool`.  Entry checks always read `t.invalidated`.
-/

abbrev Bytes := List Nat

/-- Go bytes.Compare (also pebble's DefaultComparer.Compare): -1, 0 or 1.
A nil slice compares equal to an empty slice. -/
def bytesCompare : Bytes → Bytes → Int
  | [], [] => 0
  | [], _ :: _ => -1
  | _ :: _, [] => 1
  | a :: as, b :: bs => if a < b then -1 else if b < a then 1 else bytesCompare as bs

/-- A trie key: its list of tokens (see the modelling conventions above). -/
structure Key where
  toks : List Nat
deriving DecidableEq

def emptyKey : Key := ⟨[]⟩

def Key.length (k : Key) : Nat := k.toks.length

/-- Token extracts the i-th token of the key. -/
def Key.Token (k : Key) (i : Nat) : Nat := k.toks.getD i 0

/-- Take keeps the first n tokens of the key. -/
def Key.Take (k : Key) (n : Nat) : Key := ⟨k.toks.take n⟩

/-- Skip drops the first n tokens of the key. -/
def Key.Skip (k : Key) (n : Nat) : Key := ⟨k.toks.drop n⟩

/-- Extend appends one token and then a whole key (the compressed edge). -/
def Key.Extend (k : Key) (t : Nat) (suffix : Key) : Key := ⟨k.toks ++ t :: suffix.toks⟩

/-- The source's Key.iteratedHasPrefix: the tokens of the key from position
offset onward start with sub. -/
def Key.iteratedHasPrefixAt (k : Key) (sub : Key) (offset : Nat) : Bool :=
  decide ((k.toks.drop offset).take sub.toks.length = sub.toks)

/-- ToKey converts a byte slice to a key (one token per byte in this model). -/
def ToKey (b : Bytes) : Key := ⟨b⟩

/-- Modelled from the spec: node IDs are 32-byte SHA-256 digests.  SHA-256 is
modelled as an injective function, so an ID is represented by the byte string
the spec feeds to the hash (section 4.3), with `ids.Empty` the empty string. -/
abbrev ID := List Nat

def idsEmpty : ID := []

/-- The child reference held by a node for one of its children.  The source's
struct also carries a hasValue byte consumed by the hash; the trie-view file
never sets it, so it stays at its zero value here. -/
structure Child where
  compressedKey : Key
  id : ID
  hasValue : Bool
deriving DecidableEq

/-- A non-nil Go map from token to child reference. -/
abbrev ChildMap := List (Nat × Child)

/-- Go's nodeChildren: a nil-able map.  none is Go's nil map. -/
abbrev NodeChildren := Option ChildMap

/-- Reading a nil map behaves like reading an empty map. -/
def ncEntries : NodeChildren → ChildMap
  | none => []
  | some m => m

def ncLen (n : NodeChildren) : Nat := (ncEntries n).length

def childLookup : ChildMap → Nat → Option Child
  | [], _ => none
  | p :: rest, i => if p.1 = i then some p.2 else childLookup rest i

def childMapSet : ChildMap → Nat → Child → ChildMap
  | [], i, c => [(i, c)]
  | p :: rest, i, c => if p.1 = i then (i, c) :: rest else p :: childMapSet rest i c

def childMapErase : ChildMap → Nat → ChildMap
  | [], _ => []
  | p :: rest, i => if p.1 = i then childMapErase rest i else p :: childMapErase rest i

/-- The source's generic change record specialised to Maybe byte values. -/
structure ValueChange where
  before : Option Bytes
  after : Option Bytes
deriving DecidableEq

def kvLookup {β : Type} : List (Key × β) → Key → Option β
  | [], _ => none
  | p :: rest, k => if p.1 = k then some p.2 else kvLookup rest k

def kvSet {β : Type} : List (Key × β) → Key → β → List (Key × β)
  | [], k, v => [(k, v)]
  | p :: rest, k, v => if p.1 = k then (k, v) :: rest else p :: kvSet rest k v

/-- The error kinds surfaced by the modelled code.  fuelExhausted is an
artifact of the explicit recursion bound of calculateNodeIDsHelper and is
unreachable for the fuel the caller supplies. -/
inductive Err where
  | invalid
  | notFound
  | nodesAlreadyCalculated
  | startAfterEnd
  | invalidMaxLength
  | noValidRoot
  | getPathToFailure
  | fuelExhausted
deriving DecidableEq

/-- The parent trie of a view (another view or the committed database), as the
interface the child actually uses.  The merkledb side of this interface is not
among the source files; its fields are the abstract collaborator.  iterKVs is
the parent's key-ordered contents, used by the spec-modelled iterator. -/
structure ParentTrie where
  getValue : Key → Except Err (Option Bytes)
  getChildren : Key → Except Err NodeChildren
  iterKVs : List (Bytes × Bytes)
  newView : List (Key × Option Bytes) → Except Err Unit

/-- The state of one trieView.  changesValues is the changes.values map; the
order of the association list stands for the (arbitrary) iteration order of
the Go map, which calculateNodeIDs makes observable.  rootID is
changes.rootID. -/
structure TrieView where
  committed : Bool
  nodesAlreadyCalculated : Bool
  calculateOnceDone : Bool
  invalidated : Bool
  parentTrie : ParentTrie
  changesValues : List (Key × ValueChange)
  rootID : ID
  childrenChanges : List (Key × NodeChildren)

def isInvalid (t : TrieView) : Bool := t.invalidated

def recordChildEntry (t : TrieView) (key : Key) (childIndex : Nat) (entry : Child) : TrieView :=
  match kvLookup t.childrenChanges key with
  | some (some existing) =>
      { t with childrenChanges :=
          kvSet t.childrenChanges key (some (childMapSet existing childIndex entry)) }
  | _ =>
      { t with childrenChanges :=
          kvSet t.childrenChanges key (some (childMapSet [] childIndex entry)) }

def recordChildChange (t : TrieView) (key childKey : Key) (id : ID) : TrieView :=
  recordChildEntry t key (childKey.Token key.length)
    { compressedKey := childKey.Skip (key.length + 1), id := id, hasValue := false }

def recordPendingChildChange (t : TrieView) (key childKey : Key) : TrieView :=
  recordChildEntry t key (childKey.Token key.length)
    { compressedKey := childKey.Skip (key.length + 1), id := idsEmpty, hasValue := false }

/-- The source allocates a fresh empty map and stores it at key, replacing any
map already recorded there. -/
def recordNewNode (t : TrieView) (key : Key) : TrieView :=
  { t with childrenChanges := kvSet t.childrenChanges key (some []) }

def recordNodeDeleted (t : TrieView) (key : Key) : TrieView :=
  { t with childrenChanges := kvSet t.childrenChanges key none }

def recordChildRemoved (t : TrieView) (key childKey : Key) : TrieView :=
  match kvLookup t.childrenChanges key with
  | some (some existing) =>
      { t with childrenChanges :=
          kvSet t.childrenChanges key (some (childMapErase existing (childKey.Token key.length))) }
  | some none => t
  | none => t

def getChildrenInternal (t : TrieView) (key : Key) : Except Err NodeChildren :=
  match kvLookup t.childrenChanges key with
  | some childrenChanges => if childrenChanges = none then .error .notFound else .ok childrenChanges
  | none =>
      match t.parentTrie.getChildren key with
      | .error e => .error e
      | .ok parentTrieNode => .ok parentTrieNode

/-- The public getChildren with its entry and exit invalidation checks.  No
claim concerns invalidation concurrent with this call, so both checks read the
same flag here. -/
def getChildren (t : TrieView) (key : Key) : Except Err NodeChildren :=
  if t.invalidated then .error .invalid
  else
    match getChildrenInternal t key with
    | .error e => .error e
    | .ok n => if t.invalidated then .error .invalid else .ok n

/-- getValue: the entry check reads the flag; the re-check after the parent
call reads the flag or the concurrent-invalidation oracle invDuring. -/
def getValue (t : TrieView) (key : Key) (invDuring : Bool) : Except Err (Option Bytes) :=
  if t.invalidated then .error .invalid
  else
    match kvLookup t.changesValues key with
    | some change => .ok change.after
    | none =>
        match t.parentTrie.getValue key with
        | .error e => .error e
        | .ok value =>
            if t.invalidated || invDuring then .error .invalid else .ok value

/-- The walk of visitPathToKey below the root: from the node at currentKey
with child table currentChildren, returns the list of the further visited
(key, children) pairs, and the error that stopped the walk if one did.
The two callers' callbacks only mutate nodes the walk has already passed, so
the walk itself is computed first and the callbacks are folded over the
visited list afterwards, in visiting order.  Every iteration of the source's
loop lengthens currentKey by at least one token while it stays shorter than
key, so the fuel visitPathToKey supplies (the length of key) bounds the
iteration count and the zero-fuel branch is unreachable. -/
def visitLoop (t : TrieView) (key : Key) :
    Nat → Key → NodeChildren → List (Key × NodeChildren) × Option Err
  | 0, _, _ => ([], none)
  | fuel + 1, currentKey, currentChildren =>
    if currentKey.length < key.length then
      match childLookup (ncEntries currentChildren) (key.Token currentKey.length) with
      | none => ([], none)
      | some nextChildEntry =>
          if key.iteratedHasPrefixAt nextChildEntry.compressedKey (currentKey.length + 1) then
            let nextKey := key.Take (currentKey.length + 1 + nextChildEntry.compressedKey.length)
            match getChildrenInternal t nextKey with
            | .error e => ([], some e)
            | .ok cs =>
                let rest := visitLoop t key fuel nextKey cs
                ((nextKey, cs) :: rest.1, rest.2)
          else ([], none)
    else ([], none)

/-- visitPathToKey: the root is always visited first, with the children map
recorded for the empty key (a missing or nil entry reads as the nil map). -/
def visitPathToKey (t : TrieView) (key : Key) : List (Key × NodeChildren) × Option Err :=
  let rootChildren : NodeChildren := ((kvLookup t.childrenChanges emptyKey).getD none)
  let rest := visitLoop t key key.length emptyKey rootChildren
  ((emptyKey, rootChildren) :: rest.1, rest.2)

/-- The visit callback of insert: record a pending child change from each
visited node to the next visited node. -/
def insertVisitFold : TrieView → List (Key × NodeChildren) → TrieView
  | t, a :: b :: rest => insertVisitFold (recordPendingChildChange t a.1 b.1) (b :: rest)
  | t, _ => t

/-- The source's getLengthOfCommonPrefix: the number of leading tokens shared
by first and by second read from secondOffset onward. -/
def commonTokens : List Nat → List Nat → Nat
  | a :: as, b :: bs => if a = b then commonTokens as bs + 1 else 0
  | _, _ => 0

def getLengthOfCommonPrefixTokens (first second : Key) (secondOffset : Nat) : Nat :=
  commonTokens first.toks (second.toks.drop secondOffset)

/-- The view state after the mid-edge branch case of insert.  The source's
local branchKey is the written-out key.Take (closestKey.length + 1 +
commonPrefixLength): create the branch under the closest node, hang the new
key under the branch when it is not the branch itself, re-parent the existing
child under the branch, and finally record the fresh node for key (which, when
key is the branch key itself, replaces the branch's just-built child map with
an empty one). -/
def insertBranchState (t : TrieView) (key closestKey : Key) (existingChildEntry : Child)
    (commonPrefixLength : Nat) : TrieView :=
  recordNewNode
    (recordChildEntry
      (if key.length ≠ (key.Take (closestKey.length + 1 + commonPrefixLength)).length then
        recordChildChange
          (recordChildChange t closestKey (key.Take (closestKey.length + 1 + commonPrefixLength))
            idsEmpty)
          (key.Take (closestKey.length + 1 + commonPrefixLength)) key idsEmpty
      else
        recordChildChange t closestKey (key.Take (closestKey.length + 1 + commonPrefixLength))
          idsEmpty)
      (key.Take (closestKey.length + 1 + commonPrefixLength))
      (existingChildEntry.compressedKey.Token commonPrefixLength)
      ({ compressedKey := existingChildEntry.compressedKey.Skip (commonPrefixLength + 1),
         id := existingChildEntry.id, hasValue := false }))
    key

/-- The tail of insert once the walk has delivered the closest node. -/
def insertAtClosest (t : TrieView) (key closestKey : Key) (closestChildren : NodeChildren) :
    Except Err Unit × TrieView :=
  if closestKey = key then (.ok (), t)
  else
    match childLookup (ncEntries closestChildren) (key.Token closestKey.length) with
    | none => (.ok (), recordNewNode (recordChildChange t closestKey key idsEmpty) key)
    | some existingChildEntry =>
        if existingChildEntry.compressedKey.length ≤
            getLengthOfCommonPrefixTokens existingChildEntry.compressedKey key
              (closestKey.length + 1) then
          (.error .getPathToFailure, t)
        else
          (.ok (), insertBranchState t key closestKey existingChildEntry
            (getLengthOfCommonPrefixTokens existingChildEntry.compressedKey key
              (closestKey.length + 1)))

/-- insert a key into the trie structure (the value itself lives in
changes.values).  The Go function also returns the terminal node's children
map, which its only caller discards. -/
def TrieView.insert (t0 : TrieView) (key : Key) : Except Err Unit × TrieView :=
  if t0.nodesAlreadyCalculated then (.error .nodesAlreadyCalculated, t0)
  else
    match (visitPathToKey t0 key).2 with
    | some e => (.error e, insertVisitFold t0 (visitPathToKey t0 key).1)
    | none =>
        insertAtClosest (insertVisitFold t0 (visitPathToKey t0 key).1) key
          ((visitPathToKey t0 key).1.getLastD (emptyKey, none)).1
          ((visitPathToKey t0 key).1.getLastD (emptyKey, none)).2

/-- compressNodePath merges a valueless single-child node into its child. -/
def compressNodePath (t : TrieView) (parent : NodeChildren) (parentKey : Key)
    (node : NodeChildren) (nodeKey : Key) : Except Err Unit × TrieView :=
  if t.nodesAlreadyCalculated then (.error .nodesAlreadyCalculated, t)
  else if parent = none ∨ ncLen node ≠ 1 then (.ok (), t)
  else
    match getValue t nodeKey false with
    | .error e => (.error e, t)
    | .ok val =>
      if val.isSome then (.ok (), t)
      else
        let t := recordNodeDeleted t nodeKey
        match ncEntries node with
        | [] => (.ok (), t)
        | (index, entry) :: _ =>
            let childKey := nodeKey.Extend index entry.compressedKey
            (.ok (), recordChildChange t parentKey childKey entry.id)

/-- The rolling window of the remove walk: the last three visited nodes. -/
structure RemoveWalk where
  grandParentKey : Key
  parentKey : Key
  nodeToDeleteKey : Key
  grandParent : NodeChildren
  parent : NodeChildren
  nodeToDelete : NodeChildren

def initRemoveWalk : RemoveWalk :=
  { grandParentKey := emptyKey, parentKey := emptyKey, nodeToDeleteKey := emptyKey,
    grandParent := none, parent := none, nodeToDelete := none }

/-- One shift of the remove walk window. -/
def shiftWalk (w : RemoveWalk) (kc : Key × NodeChildren) : RemoveWalk :=
  { grandParentKey := w.parentKey, parentKey := w.nodeToDeleteKey, nodeToDeleteKey := kc.1,
    grandParent := w.parent, parent := w.nodeToDelete, nodeToDelete := kc.2 }

/-- The visit callback of remove: shift the window, then record a pending
child change from the parent to the node when the parent map is non-nil
(after the shift the parent map is the previous nodeToDelete). -/
def removeStep (t : TrieView) (w : RemoveWalk) (kc : Key × NodeChildren) : TrieView × RemoveWalk :=
  if w.nodeToDelete ≠ none then
    (recordPendingChildChange t w.nodeToDeleteKey kc.1, shiftWalk w kc)
  else (t, shiftWalk w kc)

def removeWalkFold : TrieView → RemoveWalk → List (Key × NodeChildren) → TrieView × RemoveWalk
  | t, w, [] => (t, w)
  | t, w, kc :: rest =>
      let tw := removeStep t w kc
      removeWalkFold tw.1 tw.2 rest

/-- The tail of remove once the walk has delivered its window. -/
def removeFinish (t : TrieView) (w : RemoveWalk) : Except Err Unit × TrieView :=
  if ncLen w.nodeToDelete ≠ 0 then
    compressNodePath t w.parent w.parentKey w.nodeToDelete w.nodeToDeleteKey
  else if w.parent ≠ none then
    compressNodePath
      (recordChildRemoved (recordNodeDeleted t w.nodeToDeleteKey) w.parentKey w.nodeToDeleteKey)
      w.grandParent w.grandParentKey w.parent w.parentKey
  else (.ok (), recordNodeDeleted t w.nodeToDeleteKey)

def remove (t0 : TrieView) (key : Key) : Except Err Unit × TrieView :=
  if t0.nodesAlreadyCalculated then (.error .nodesAlreadyCalculated, t0)
  else
    match getChildren t0 key with
    | .error e => if e = .notFound then (.ok (), t0) else (.error e, t0)
    | .ok keyNode =>
      if keyNode = none then (.ok (), t0)
      else
        match (visitPathToKey t0 key).2 with
        | some e => (.error e, (removeWalkFold t0 initRemoveWalk (visitPathToKey t0 key).1).1)
        | none =>
            removeFinish (removeWalkFold t0 initRemoveWalk (visitPathToKey t0 key).1).1
              (removeWalkFold t0 initRemoveWalk (visitPathToKey t0 key).1).2

/-- Modelled from the spec: serializing a key for hashing, section 4.3:
varint token length followed by the packed tokens. -/
def serializeKey (k : Key) : List Nat := k.length :: k.toks

/-- Modelled from the spec: calculateID (the hashing code is not among the
source files).  The spec's SHA-256 input of section 4.3 is built from the
child count, the children sorted by token ascending (token, serialized
compressed key, child id, hasValue byte), the value presence and digest, and
the serialized node key; SHA-256 itself is modelled as injective, so the ID is
that input (ids are length-prefixed to keep the encoding injective, and the
value digest is the value itself). -/
def calculateID (key : Key) (children : ChildMap) (value : Option Bytes) : ID :=
  let sorted := List.insertionSort (fun a b => a.1 ≤ b.1) children
  sorted.length ::
    (sorted.flatMap (fun p =>
      p.1 :: (serializeKey p.2.compressedKey ++ (p.2.id.length :: p.2.id) ++
        [if p.2.hasValue then 1 else 0])) ++
     (match value with
      | some v => 1 :: v.length :: v
      | none => [0]) ++
     serializeKey key)

/-- The loop body of calculateNodeIDsHelper over the children map: skip a
child when no change is recorded under it or its ID is still valid, otherwise
recompute its subtree through rec, the helper one fuel level down.  The
source runs children concurrently and writes each recomputed child ID in
place in the children map; here the updated map is rebuilt. -/
def calculateChildIDs (rec : Key → Option Bytes → Except Err ID) (t : TrieView) (key : Key) :
    ChildMap → Except Err ChildMap
  | [] => .ok []
  | (childIndex, child) :: rest =>
    let childPath := key.Extend childIndex child.compressedKey
    let childrenChanged := (kvLookup t.childrenChanges childPath).isSome
    let valueChange := kvLookup t.changesValues childPath
    if (!childrenChanged && !(valueChange.isSome)) || child.id ≠ idsEmpty then
      match calculateChildIDs rec t key rest with
      | .error e => .error e
      | .ok rest2 => .ok ((childIndex, child) :: rest2)
    else
      let changedValue : Option Bytes :=
        match valueChange with
        | some vc => vc.after
        | none => none
      match rec childPath changedValue with
      | .error e => .error e
      | .ok cid =>
        match calculateChildIDs rec t key rest with
        | .error e => .error e
        | .ok rest2 => .ok ((childIndex, { child with id := cid }) :: rest2)

/-- calculateNodeIDsHelper: recompute the IDs of the descendants of the node
at key that need it, then the node's own ID.  The fuel argument bounds the
recursion depth; each recursive step descends to a key that is present in
childrenChanges or in changes.values and strictly longer, so the caller's fuel
(one more than the sizes of those two maps) can never run out. -/
def calculateNodeIDsHelper (t : TrieView) : Nat → Key → Option Bytes → Except Err ID
  | 0, _, _ => .error .fuelExhausted
  | f + 1, key, value =>
    match getChildren t key with
    | .error e => .error e
    | .ok children =>
      match calculateChildIDs (calculateNodeIDsHelper t f) t key (ncEntries children) with
      | .error e => .error e
      | .ok updated => .ok (calculateID key updated value)

/-- The loop of calculateNodeIDs over changes.values, in the iteration order
of the map (the order of the association list): removals for cleared values,
insertions otherwise. -/
def applyValueChanges : TrieView → List (Key × ValueChange) → Except Err Unit × TrieView
  | t, [] => (.ok (), t)
  | t, (key, change) :: rest =>
    match (if change.after = none then remove t key else TrieView.insert t key) with
    | (.error e, t2) => (.error e, t2)
    | (.ok _, t2) => applyValueChanges t2 rest

/-- Fuel that cannot run out: the helper only descends to keys recorded in
childrenChanges or changes.values, along a strictly lengthening path. -/
def calcFuel (t : TrieView) : Nat := t.childrenChanges.length + t.changesValues.length + 1

/-- The tail of calculateNodeIDs after the changes were applied to the trie
structure: root value, root ID recomputation, final invalidation re-check. -/
def calcTail (t2 : TrieView) (invAtEnd : Bool) : Except Err Unit × TrieView :=
  match getValue t2 emptyKey false with
  | .error e => (.error e, { t2 with nodesAlreadyCalculated := true })
  | .ok val =>
    match calculateNodeIDsHelper t2 (calcFuel t2) emptyKey val with
    | .error e =>
        (.error e, { t2 with rootID := idsEmpty, nodesAlreadyCalculated := true })
    | .ok rootID =>
      if t2.invalidated || invAtEnd then
        (.error .invalid, { t2 with rootID := rootID, nodesAlreadyCalculated := true })
      else (.ok (), { t2 with rootID := rootID, nodesAlreadyCalculated := true })

/-- calculateNodeIDs: the body runs at most once (sync.Once), modelled by the
calculateOnceDone flag; a later call returns nil without running anything.
nodesAlreadyCalculated is set (deferred in the source) on every exit of the
body except the entry invalidation check, which returns first.  On a helper
error Go's multiple assignment stores ids.Empty into changes.rootID.
invAtEnd is the concurrent-invalidation oracle for the final re-check. -/
def calculateNodeIDs (t : TrieView) (invAtEnd : Bool) : Except Err Unit × TrieView :=
  if t.calculateOnceDone then (.ok (), t)
  else if t.invalidated then (.error .invalid, { t with calculateOnceDone := true })
  else
    match applyValueChanges ({ t with calculateOnceDone := true }) t.changesValues with
    | (.error e, t2) => (.error e, { t2 with nodesAlreadyCalculated := true })
    | (.ok _, t2) => calcTail t2 invAtEnd

/-- GetMerkleRoot forces calculation and returns changes.rootID. -/
def GetMerkleRoot (t : TrieView) (invAtEnd : Bool) : Except Err ID × TrieView :=
  match calculateNodeIDs t invAtEnd with
  | (.error e, t1) => (.error e, t1)
  | (.ok _, t1) => (.ok t1.rootID, t1)

/-- recordValueChange: update the after side of an existing record, or create
a record whose before side is the parent's current value. -/
def recordValueChange (t : TrieView) (key : Key) (value : Option Bytes) :
    Except Err Unit × TrieView :=
  if t.nodesAlreadyCalculated then (.error .nodesAlreadyCalculated, t)
  else
    match kvLookup t.changesValues key with
    | some existing =>
        let cv := kvSet t.changesValues key ({ existing with after := value })
        (.ok (), { t with changesValues := cv })
    | none =>
        match t.parentTrie.getValue key with
        | .error e => (.error e, t)
        | .ok before =>
            let cv := kvSet t.changesValues key ({ before := before, after := value })
            (.ok (), { t with changesValues := cv })

/-- The batch of operations of a ViewChanges, in application order; a none
value is a delete.  newTrieView clones the parent's root children and records
every operation. -/
def applyBatchOps : TrieView → List (Key × Option Bytes) → Except Err TrieView
  | t, [] => .ok t
  | t, (k, v) :: rest =>
    match recordValueChange t k v with
    | (.error e, _) => .error e
    | (.ok _, t2) => applyBatchOps t2 rest

def newTrieView (parentTrie : ParentTrie) (changes : List (Key × Option Bytes)) :
    Except Err TrieView :=
  match parentTrie.getChildren emptyKey with
  | .error e => if e = .notFound then .error .noValidRoot else .error e
  | .ok rootChildren =>
      applyBatchOps
        { committed := false, nodesAlreadyCalculated := false, calculateOnceDone := false,
          invalidated := false, parentTrie := parentTrie, changesValues := [],
          rootID := idsEmpty, childrenChanges := [(emptyKey, rootChildren)] }
        changes

/-- A view seen through the parent-trie interface by a child view.  In-model
reads delegate with no concurrent-invalidation oracle; the delegated NewView
outcome of a view used as a parent is not needed by any theorem below and is
modelled as success. -/
def viewAsParent (t : TrieView) : ParentTrie :=
  { getValue := fun k => getValue t k false,
    getChildren := fun k => getChildren t k,
    iterKVs := t.parentTrie.iterKVs,
    newView := fun _ => .ok () }

/-- NewView on a view: entry invalidation check; a committed view delegates to
its parent; otherwise force calculation, build the child with newTrieView and
re-check invalidation before registering the child.  The returned option is
the child view built here (none when the call was delegated). -/
def NewView (t : TrieView) (changes : List (Key × Option Bytes)) :
    Except Err (Option TrieView) × TrieView :=
  if t.invalidated then (.error .invalid, t)
  else if t.committed then
    match t.parentTrie.newView changes with
    | .error e => (.error e, t)
    | .ok _ => (.ok none, t)
  else
    match calculateNodeIDs t false with
    | (.error e, t1) => (.error e, t1)
    | (.ok _, t1) =>
      match newTrieView (viewAsParent t1) changes with
      | .error e => (.error e, t1)
      | .ok newV =>
          if t1.invalidated then (.error .invalid, t1)
          else (.ok (some newV), t1)

/-- Modelled from the spec: a proof node of section 4.6 — the node's key, its
value digest and its child ids.  The digest of a value is the value itself
(SHA-256 modelled injective). -/
structure ProofNode where
  key : Key
  valueDigest : Option Bytes
  children : List (Nat × ID)
deriving DecidableEq

/-- Modelled from the spec: asProofNode builds the proof node of a visited
node, children listed by ascending token. -/
def asProofNode (key : Key) (children : NodeChildren) (value : Option Bytes) : ProofNode :=
  { key := key,
    valueDigest := value,
    children :=
      (List.insertionSort (fun a b => a.1 ≤ b.1) (ncEntries children)).map
        (fun p => (p.1, p.2.id)) }

/-- A single-key proof: the queried key, the visited path, and the full value
when the key is present. -/
structure Proof where
  key : Key
  path : List ProofNode
  value : Option Bytes
deriving DecidableEq

/-- The state accumulated by getProof's visit callback. -/
structure ProofWalk where
  closestKey : Key
  closestChildren : NodeChildren
  closestValue : Option Bytes
  path : List ProofNode

/-- The visit callback of getProof, folded over the visited nodes in visiting
order: look the value up, then append the proof node. -/
def getProofFold (t : TrieView) : ProofWalk → List (Key × NodeChildren) → Except Err ProofWalk
  | st, [] => .ok st
  | st, (k, cs) :: rest =>
    match getValue t k false with
    | .error e => .error e
    | .ok v =>
        getProofFold t
          { closestKey := k, closestChildren := cs, closestValue := v,
            path := st.path ++ [asProofNode k cs v] } rest

/-- The extra proof node of getProof for an absent key: the child the walk
would have descended into, with the final invalidation re-check. -/
def getProofChild (t : TrieView) (key : Key) (walkPath : List ProofNode) (childKey : Key) :
    Except Err Proof :=
  match getChildren t childKey with
  | .error e => .error e
  | .ok childChildren =>
    match getValue t childKey false with
    | .error e => .error e
    | .ok childValue =>
      if t.invalidated then .error .invalid
      else
        .ok { key := key, path := walkPath ++ [asProofNode childKey childChildren childValue],
              value := none }

/-- The tail of getProof once the walk has delivered the closest node. -/
def getProofFromWalk (t : TrieView) (key : Key) (walk : ProofWalk) : Except Err Proof :=
  if walk.closestKey = key then
    .ok { key := key, path := walk.path, value := walk.closestValue }
  else
    match childLookup (ncEntries walk.closestChildren) (key.Token walk.closestKey.length) with
    | none => .ok { key := key, path := walk.path, value := none }
    | some child =>
        getProofChild t key walk.path
          (walk.closestKey.Extend (key.Token walk.closestKey.length) child.compressedKey)

/-- getProof (the lock-free inner builder).  A callback error of the walk
precedes a walk error discovered later, exactly as in the source where the two
interleave. -/
def getProof (t : TrieView) (keyBytes : Bytes) : Except Err Proof :=
  match getProofFold t
      { closestKey := emptyKey, closestChildren := none, closestValue := none, path := [] }
      (visitPathToKey t (ToKey keyBytes)).1 with
  | .error e => .error e
  | .ok walk =>
    match (visitPathToKey t (ToKey keyBytes)).2 with
    | some e => .error e
    | none => getProofFromWalk t (ToKey keyBytes) walk

/-- GetProof forces calculation and then builds the proof. -/
def GetProof (t : TrieView) (keyBytes : Bytes) : Except Err Proof × TrieView :=
  match calculateNodeIDs t false with
  | (.error e, t1) => (.error e, t1)
  | (.ok _, t1) =>
    match getProof t1 keyBytes with
    | .error e => (.error e, t1)
    | .ok p => (.ok p, t1)

/-- Modelled from the spec: the final key-value pairs of the view — the
parent's contents with the view's recorded changes applied (removed keys
filtered out, recorded after-values added). -/
def viewPairs (t : TrieView) : List (Bytes × Bytes) :=
  t.parentTrie.iterKVs.filter (fun kv => (kvLookup t.changesValues (ToKey kv.1)).isNone) ++
    t.changesValues.filterMap (fun p =>
      match p.2.after with
      | some v => some (p.1.toks, v)
      | none => none)

/-- Modelled from the spec: NewIteratorWithStart on a view (the merkledb trie
iterator is not among the source files): it yields the view's final key-value
pairs in ascending byte order, starting at the first key at or after start
(iterators yield key-ordered entries, section 6.1). -/
def NewIteratorWithStart (t : TrieView) (start : Bytes) : List (Bytes × Bytes) :=
  (List.insertionSort (fun a b => bytesCompare a.1 b.1 ≤ 0) (viewPairs t)).filter
    (fun kv => bytesCompare start kv.1 ≤ 0)

/-- The collection loop of GetRangeProof: stop when the iterator is done, when
maxLength pairs were taken, or at the first key above end. -/
def rangeLoop : List (Bytes × Bytes) → Option Bytes → Nat → List (Bytes × Bytes)
  | [], _, _ => []
  | _, _, 0 => []
  | kv :: rest, endB, r + 1 =>
    match endB with
    | some e => if bytesCompare kv.1 e ≤ 0 then kv :: rangeLoop rest endB r else []
    | none => kv :: rangeLoop rest (none : Option Bytes) r

def rangeKeyValues (t1 : TrieView) (start endB : Option Bytes) (maxLength : Int) :
    List (Bytes × Bytes) :=
  rangeLoop (NewIteratorWithStart t1 (start.getD [])) endB maxLength.toNat

/-- The end proof of GetRangeProof: for the greatest collected key, else for
end when it is bounded, else absent. -/
def computeEndProof (t1 : TrieView) (keyValues : List (Bytes × Bytes)) (endB : Option Bytes) :
    Except Err (Option Proof) :=
  match keyValues.getLast? with
  | some kv =>
    match getProof t1 kv.1 with
    | .error e => .error e
    | .ok p => .ok (some p)
  | none =>
    match endB with
    | some e =>
      match getProof t1 e with
      | .error er => .error er
      | .ok p => .ok (some p)
    | none => .ok none

/-- Strip the proof nodes shared with the end proof from the front of the
start proof. -/
def stripCommon : List ProofNode → List ProofNode → List ProofNode
  | s :: ss, e :: es => if s.key = e.key then stripCommon ss es else s :: ss
  | s, _ => s

/-- The start proof of GetRangeProof, already stripped of the proof nodes it
shares with the end proof. -/
def computeStartPath (t1 : TrieView) (start : Option Bytes) (endPath : List ProofNode) :
    Except Err (List ProofNode) :=
  match start with
  | some s =>
    match getProof t1 s with
    | .error e => .error e
    | .ok sp => .ok (stripCommon sp.path endPath)
  | none => .ok []

/-- The rootKey constant the source passes to getProof for an entirely empty
range: the empty key designating the root. -/
def rootKeyBytes : Bytes := []

structure RangeProof where
  keyValues : List (Bytes × Bytes)
  startProof : List ProofNode
  endProof : List ProofNode
deriving DecidableEq

/-- The path of an optional proof; the empty path when there is none. -/
def optPath : Option Proof → List ProofNode
  | some p => p.path
  | none => []

/-- The final assembly of GetRangeProof: the root proof replaces the end proof
when start proof, end proof and key-values are all empty, and the invalidation
re-check guards the return. -/
def rangeAssemble (t1 : TrieView) (keyValues : List (Bytes × Bytes))
    (startPath endPath : List ProofNode) : Except Err RangeProof × TrieView :=
  if startPath = [] ∧ endPath = [] ∧ keyValues = [] then
    match getProof t1 rootKeyBytes with
    | .error e => (.error e, t1)
    | .ok rootProof =>
      if t1.invalidated then (.error .invalid, t1)
      else
        (.ok { keyValues := keyValues, startProof := startPath,
               endProof := rootProof.path }, t1)
  else if t1.invalidated then (.error .invalid, t1)
  else (.ok { keyValues := keyValues, startProof := startPath, endProof := endPath }, t1)

/-- GetRangeProof after the forced calculation: collection via the iterator,
end proof, start proof with common-prefix stripping, assembly. -/
def rangeAfterCalc (t1 : TrieView) (start endB : Option Bytes) (maxLength : Int) :
    Except Err RangeProof × TrieView :=
  match computeEndProof t1 (rangeKeyValues t1 start endB maxLength) endB with
  | .error e => (.error e, t1)
  | .ok endProof =>
    match computeStartPath t1 start (optPath endProof) with
    | .error e => (.error e, t1)
    | .ok startPath =>
        rangeAssemble t1 (rangeKeyValues t1 start endB maxLength) startPath (optPath endProof)

/-- GetRangeProof: argument validation, forced calculation, and the collection
and proof-building tail above. -/
def GetRangeProof (t : TrieView) (start endB : Option Bytes) (maxLength : Int) :
    Except Err RangeProof × TrieView :=
  if start.isSome ∧ endB.isSome ∧ bytesCompare (start.getD []) (endB.getD []) = 1 then
    (.error .startAfterEnd, t)
  else if maxLength ≤ 0 then (.error .invalidMaxLength, t)
  else
    match calculateNodeIDs t false with
    | (.error e, t1) => (.error e, t1)
    | (.ok _, t1) => rangeAfterCalc t1 start endB maxLength

/-- The tree of views formed by the childViews registries, rooted at the view
invalidate is called on. -/
inductive ViewTree where
  | node (st : TrieView) (childViews : List ViewTree)

mutual
/-- invalidate: set the flag, recurse into the children read before clearing,
then clear the own child list.  The Go method mutates the object graph in
place; here the list of all resulting view objects is returned, in visiting
order, each with its cleared child list. -/
def invalidate : ViewTree → List ViewTree
  | .node st childViews =>
      ViewTree.node ({ st with invalidated := true }) [] :: invalidateChildren childViews
def invalidateChildren : List ViewTree → List ViewTree
  | [] => []
  | c :: cs => invalidate c ++ invalidateChildren cs
end

mutual
/-- All view states reachable through the child registries, in visiting
order. -/
def allViews : ViewTree → List TrieView
  | .node st childViews => st :: allViewsChildren childViews
def allViewsChildren : List ViewTree → List TrieView
  | [] => []
  | c :: cs => allViews c ++ allViewsChildren cs
end

/-- The pebble database wrapper: the pebble handle is modelled by its
key-ordered contents. -/
structure PebbleDB where
  closed : Bool
  contents : List (Bytes × Bytes)

/-- Modelled from the spec: what the Compact wrapper ends up doing — pebble's
own Compact call is external, so the model records the range it would be
invoked with, or that the wrapper returned without invoking it. -/
inductive CompactResult where
  | errClosed
  | noop
  | compacted (start limitUsed : Bytes)
deriving DecidableEq

/-- Compact of the pebble wrapper: closed check; no-op when start compares at
or above limit under pebble's comparer (bytes.Compare, nil reading as empty);
direct compaction for a non-nil limit; for a nil limit, seek the last key of a
fresh iterator and compact up to it, or no-op when the database is empty. -/
def Compact (db : PebbleDB) (start limit : Option Bytes) : CompactResult :=
  if db.closed then .errClosed
  else if 0 ≤ bytesCompare (start.getD []) (limit.getD []) then .noop
  else
    match limit with
    | some l => .compacted (start.getD []) l
    | none =>
      match (db.contents.map (fun kv => kv.1)).getLast? with
      | some lastkey => .compacted (start.getD []) lastkey
      | none => .noop

/-- recordSeq applies a sequence of recordValueChange calls in order; a call
that fails leaves the view unchanged, exactly as the function does. -/
def recordSeq : TrieView → List (Key × Option Bytes) → TrieView
  | t, [] => t
  | t, (k, v) :: rest => recordSeq (recordValueChange t k v).2 rest

/-- The value of the last recordValueChange call for a key within a sequence
of calls, when the key occurs in the sequence. -/
def lastRecorded (k : Key) (ops : List (Key × Option Bytes)) : Option (Option Bytes) :=
  ((ops.filter (fun p => decide (p.1 = k))).getLast?).map (fun p => p.2)

/-- Equality of every view field except childrenChanges: what the pure node
edit recorders leave untouched. -/
def nodeEditsOnly (a b : TrieView) : Prop :=
  a.committed = b.committed ∧ a.nodesAlreadyCalculated = b.nodesAlreadyCalculated ∧
  a.calculateOnceDone = b.calculateOnceDone ∧ a.invalidated = b.invalidated ∧
  a.parentTrie = b.parentTrie ∧ a.changesValues = b.changesValues ∧ a.rootID = b.rootID

/-- Equality of the view fields no part of calculateNodeIDs ever writes. -/
def coreStable (a b : TrieView) : Prop :=
  a.committed = b.committed ∧ a.invalidated = b.invalidated ∧
  a.parentTrie = b.parentTrie ∧ a.changesValues = b.changesValues

/-- A parent whose trie is empty: a root with no children and no values. -/
def emptyRootParent : ParentTrie :=
  { getValue := fun _ => .ok none,
    getChildren := fun k => if k = emptyKey then .ok (some []) else .error .notFound,
    iterKVs := [],
    newView := fun _ => .ok () }

/-- A freshly built view over emptyRootParent with the given recorded value
changes. -/
def baseView (cv : List (Key × ValueChange)) : TrieView :=
  { committed := false, nodesAlreadyCalculated := false, calculateOnceDone := false,
    invalidated := false, parentTrie := emptyRootParent, changesValues := cv,
    rootID := idsEmpty, childrenChanges := [(emptyKey, some [])] }

/-- Two recorded changes: 0x61 maps to 0x31 and 0x61 0x62 maps to 0x32. -/
def chA : List (Key × ValueChange) :=
  [(⟨[0x61]⟩, { before := none, after := some [0x31] }),
   (⟨[0x61, 0x62]⟩, { before := none, after := some [0x32] })]

/-- The same view with the two change records in the two possible map
iteration orders. -/
def viewA : TrieView := baseView chA

def viewB : TrieView := baseView chA.reverse

/-- A valid view with no changes over the empty parent. -/
def validView : TrieView := baseView []

/-- The valid view after the invalidate cascade reaches it. -/
def invalidView : TrieView := { validView with invalidated := true }

/-- A view whose node IDs were already calculated. -/
def calcedView : TrieView := { validView with nodesAlreadyCalculated := true }

/-- An open pebble database holding the single key 0x00. -/
def pebbleDBEx : PebbleDB := { closed := false, contents := [([0], [7])] }

/-- A concrete range-proof call on viewA, and its results. -/
def c3call : Except Err RangeProof × TrieView :=
  GetRangeProof viewA (some [0x61]) (some [0x63]) 5

def c3rp : RangeProof :=
  match c3call.1 with
  | .ok rp => rp
  | .error _ => { keyValues := [], startProof := [], endProof := [] }

def c3t : TrieView := c3call.2

theorem bytesCompare_nil_left : ∀ (b : Bytes), bytesCompare [] b ≤ 0
  | [] => by simp [bytesCompare]
  | _ :: _ => by simp [bytesCompare]

theorem bytesCompare_eq_zero_iff : ∀ (a b : Bytes), bytesCompare a b = 0 ↔ a = b
  | [], [] => by simp [bytesCompare]
  | [], _ :: _ => by simp [bytesCompare]
  | _ :: _, [] => by simp [bytesCompare]
  | a :: as, b :: bs => by
    simp only [bytesCompare, List.cons.injEq]
    split_ifs with h1 h2
    · constructor
      · intro h; exact absurd h (by decide)
      · intro h; omega
    · constructor
      · intro h; exact absurd h (by decide)
      · intro h; omega
    · have hab : a = b := by omega
      rw [bytesCompare_eq_zero_iff as bs]
      simp [hab]

theorem bytesCompare_cases : ∀ (a b : Bytes),
    bytesCompare a b = -1 ∨ bytesCompare a b = 0 ∨ bytesCompare a b = 1
  | [], [] => by simp [bytesCompare]
  | [], _ :: _ => by simp [bytesCompare]
  | _ :: _, [] => by simp [bytesCompare]
  | a :: as, b :: bs => by
    simp only [bytesCompare]
    split_ifs with h1 h2
    · simp
    · simp
    · exact bytesCompare_cases as bs

theorem bytesCompare_trans : ∀ (a b c : Bytes),
    bytesCompare a b ≤ 0 → bytesCompare b c ≤ 0 → bytesCompare a c ≤ 0
  | [], _, c => fun _ _ => bytesCompare_nil_left c
  | _ :: _, [], _ => by intro h1 _; simp [bytesCompare] at h1
  | _ :: _, _ :: _, [] => by intro _ h2; simp [bytesCompare] at h2
  | a :: as, b :: bs, c :: cs => by
    intro h1 h2
    simp only [bytesCompare] at h1 h2 ⊢
    split_ifs at h1 h2 ⊢ <;>
      first
        | omega
        | exact bytesCompare_trans as bs cs h1 h2

theorem bytesCompare_neg_of_le_of_ne (a b : Bytes) (hle : bytesCompare a b ≤ 0) (hne : a ≠ b) :
    bytesCompare a b = -1 := by
  rcases bytesCompare_cases a b with h | h | h
  · exact h
  · exact absurd ((bytesCompare_eq_zero_iff a b).mp h) hne
  · omega

theorem nodeEditsOnly_refl (t : TrieView) : nodeEditsOnly t t :=
  ⟨rfl, rfl, rfl, rfl, rfl, rfl, rfl⟩

theorem nodeEditsOnly_trans {a b c : TrieView} (h1 : nodeEditsOnly a b) (h2 : nodeEditsOnly b c) :
    nodeEditsOnly a c := by
  obtain ⟨e1, e2, e3, e4, e5, e6, e7⟩ := h1
  obtain ⟨f1, f2, f3, f4, f5, f6, f7⟩ := h2
  exact ⟨e1.trans f1, e2.trans f2, e3.trans f3, e4.trans f4, e5.trans f5, e6.trans f6, e7.trans f7⟩

theorem recordChildEntry_edits (t : TrieView) (k : Key) (i : Nat) (c : Child) :
    nodeEditsOnly (recordChildEntry t k i c) t := by
  unfold recordChildEntry
  split <;> exact ⟨rfl, rfl, rfl, rfl, rfl, rfl, rfl⟩

theorem recordChildChange_edits (t : TrieView) (k ck : Key) (id : ID) :
    nodeEditsOnly (recordChildChange t k ck id) t :=
  recordChildEntry_edits t k (ck.Token k.length) _

theorem recordPendingChildChange_edits (t : TrieView) (k ck : Key) :
    nodeEditsOnly (recordPendingChildChange t k ck) t :=
  recordChildEntry_edits t k (ck.Token k.length) _

theorem recordNewNode_edits (t : TrieView) (k : Key) : nodeEditsOnly (recordNewNode t k) t :=
  ⟨rfl, rfl, rfl, rfl, rfl, rfl, rfl⟩

theorem recordNodeDeleted_edits (t : TrieView) (k : Key) : nodeEditsOnly (recordNodeDeleted t k) t :=
  ⟨rfl, rfl, rfl, rfl, rfl, rfl, rfl⟩

theorem recordChildRemoved_edits (t : TrieView) (k ck : Key) :
    nodeEditsOnly (recordChildRemoved t k ck) t := by
  unfold recordChildRemoved
  split <;> exact ⟨rfl, rfl, rfl, rfl, rfl, rfl, rfl⟩

theorem insertVisitFold_edits : ∀ (t : TrieView) (l : List (Key × NodeChildren)),
    nodeEditsOnly (insertVisitFold t l) t
  | t, [] => nodeEditsOnly_refl t
  | t, [_] => nodeEditsOnly_refl t
  | t, a :: b :: rest =>
      nodeEditsOnly_trans
        (insertVisitFold_edits (recordPendingChildChange t a.1 b.1) (b :: rest))
        (recordPendingChildChange_edits t a.1 b.1)

theorem insertBranchState_edits (t : TrieView) (key closestKey : Key) (e : Child) (cpl : Nat) :
    nodeEditsOnly (insertBranchState t key closestKey e cpl) t := by
  unfold insertBranchState
  refine nodeEditsOnly_trans (recordNewNode_edits _ _) ?_
  refine nodeEditsOnly_trans (recordChildEntry_edits _ _ _ _) ?_
  split
  · exact nodeEditsOnly_trans (recordChildChange_edits _ _ _ _) (recordChildChange_edits _ _ _ _)
  · exact recordChildChange_edits _ _ _ _

theorem insertAtClosest_edits (t : TrieView) (key closestKey : Key) (cc : NodeChildren) :
    nodeEditsOnly (insertAtClosest t key closestKey cc).2 t := by
  unfold insertAtClosest
  split
  · exact nodeEditsOnly_refl t
  · split
    · exact nodeEditsOnly_trans (recordNewNode_edits _ _) (recordChildChange_edits _ _ _ _)
    · split
      · exact nodeEditsOnly_refl t
      · exact insertBranchState_edits _ _ _ _ _

theorem insert_edits (t : TrieView) (k : Key) : nodeEditsOnly (TrieView.insert t k).2 t := by
  unfold TrieView.insert
  split
  · exact nodeEditsOnly_refl t
  · split
    · exact insertVisitFold_edits t _
    · exact nodeEditsOnly_trans (insertAtClosest_edits _ _ _ _) (insertVisitFold_edits t _)

theorem compressNodePath_edits (t : TrieView) (p : NodeChildren) (pk : Key) (n : NodeChildren)
    (nk : Key) : nodeEditsOnly (compressNodePath t p pk n nk).2 t := by
  unfold compressNodePath
  split
  · exact nodeEditsOnly_refl t
  · split
    · exact nodeEditsOnly_refl t
    · split
      · exact nodeEditsOnly_refl t
      · split
        · exact nodeEditsOnly_refl t
        · split
          · exact recordNodeDeleted_edits _ _
          · exact nodeEditsOnly_trans (recordChildChange_edits _ _ _ _)
              (recordNodeDeleted_edits _ _)

theorem removeStep_edits (t : TrieView) (w : RemoveWalk) (kc : Key × NodeChildren) :
    nodeEditsOnly (removeStep t w kc).1 t := by
  unfold removeStep
  split
  · exact recordPendingChildChange_edits _ _ _
  · exact nodeEditsOnly_refl t

theorem removeWalkFold_edits : ∀ (t : TrieView) (w : RemoveWalk) (l : List (Key × NodeChildren)),
    nodeEditsOnly (removeWalkFold t w l).1 t
  | t, w, [] => nodeEditsOnly_refl t
  | t, w, kc :: rest =>
      nodeEditsOnly_trans
        (removeWalkFold_edits (removeStep t w kc).1 (removeStep t w kc).2 rest)
        (removeStep_edits t w kc)

theorem removeFinish_edits (t : TrieView) (w : RemoveWalk) :
    nodeEditsOnly (removeFinish t w).2 t := by
  unfold removeFinish
  split
  · exact compressNodePath_edits _ _ _ _ _
  · split
    · exact nodeEditsOnly_trans (compressNodePath_edits _ _ _ _ _)
        (nodeEditsOnly_trans (recordChildRemoved_edits _ _ _) (recordNodeDeleted_edits _ _))
    · exact recordNodeDeleted_edits _ _

theorem remove_edits (t : TrieView) (k : Key) : nodeEditsOnly (remove t k).2 t := by
  unfold remove
  split
  · exact nodeEditsOnly_refl t
  · split
    · split
      · exact nodeEditsOnly_refl t
      · exact nodeEditsOnly_refl t
    · split
      · exact nodeEditsOnly_refl t
      · split
        · exact removeWalkFold_edits t _ _
        · exact nodeEditsOnly_trans (removeFinish_edits _ _) (removeWalkFold_edits t _ _)

theorem applyValueChanges_edits : ∀ (t : TrieView) (l : List (Key × ValueChange)),
    nodeEditsOnly (applyValueChanges t l).2 t
  | t, [] => nodeEditsOnly_refl t
  | t, (key, change) :: rest => by
      unfold applyValueChanges
      split
      · next heq =>
          rename_i e t2
          have h1 : nodeEditsOnly (if change.after = none then remove t key
              else TrieView.insert t key).2 t := by
            split
            · exact remove_edits t key
            · exact insert_edits t key
          rw [heq] at h1
          exact h1
      · next heq =>
          rename_i u t2
          have h1 : nodeEditsOnly (if change.after = none then remove t key
              else TrieView.insert t key).2 t := by
            split
            · exact remove_edits t key
            · exact insert_edits t key
          rw [heq] at h1
          exact nodeEditsOnly_trans (applyValueChanges_edits t2 rest) h1

theorem coreStable_trans {a b c : TrieView} (h1 : coreStable a b) (h2 : coreStable b c) :
    coreStable a c :=
  ⟨h1.1.trans h2.1, h1.2.1.trans h2.2.1, h1.2.2.1.trans h2.2.2.1, h1.2.2.2.trans h2.2.2.2⟩

theorem nodeEditsOnly_coreStable {a b : TrieView} (h : nodeEditsOnly a b) : coreStable a b :=
  ⟨h.1, h.2.2.2.1, h.2.2.2.2.1, h.2.2.2.2.2.1⟩

theorem calcTail_core (t2 : TrieView) (iE : Bool) : coreStable (calcTail t2 iE).2 t2 := by
  unfold calcTail
  split
  · exact ⟨rfl, rfl, rfl, rfl⟩
  · split
    · exact ⟨rfl, rfl, rfl, rfl⟩
    · split
      · exact ⟨rfl, rfl, rfl, rfl⟩
      · exact ⟨rfl, rfl, rfl, rfl⟩

/-- calculateNodeIDs leaves committed, invalidated, parentTrie and the
changes.values map untouched. -/
theorem calculateNodeIDs_core (t : TrieView) (iE : Bool) :
    coreStable (calculateNodeIDs t iE).2 t := by
  unfold calculateNodeIDs
  split
  · exact ⟨rfl, rfl, rfl, rfl⟩
  · split
    · exact ⟨rfl, rfl, rfl, rfl⟩
    · have hav := applyValueChanges_edits ({ t with calculateOnceDone := true }) t.changesValues
      generalize hg : applyValueChanges ({ t with calculateOnceDone := true }) t.changesValues
          = res at hav ⊢
      obtain ⟨r, t2⟩ := res
      have hc0 := nodeEditsOnly_coreStable hav
      have hc : coreStable t2 t := hc0
      cases r with
      | error e => exact hc
      | ok u => exact coreStable_trans (calcTail_core t2 iE) hc

theorem calculateNodeIDs_done (t : TrieView) (iE : Bool) (h : t.calculateOnceDone = true) :
    calculateNodeIDs t iE = (.ok (), t) := by
  simp [calculateNodeIDs, h]

theorem calcTail_once (t2 : TrieView) (iE : Bool) :
    (calcTail t2 iE).2.calculateOnceDone = t2.calculateOnceDone := by
  unfold calcTail
  split
  · rfl
  · split
    · rfl
    · split
      · rfl
      · rfl

theorem calculateNodeIDs_onceSet (t : TrieView) (iE : Bool) (h0 : t.calculateOnceDone = false) :
    (calculateNodeIDs t iE).2.calculateOnceDone = true := by
  unfold calculateNodeIDs
  simp only [h0, Bool.false_eq_true, if_false]
  split
  · rfl
  · have hav := applyValueChanges_edits ({ t with calculateOnceDone := true }) t.changesValues
    generalize hg : applyValueChanges ({ t with calculateOnceDone := true }) t.changesValues
        = res at hav ⊢
    obtain ⟨r, t2⟩ := res
    have ht2 : t2.calculateOnceDone = true := hav.2.2.1
    cases r with
    | error e => exact ht2
    | ok u => exact (calcTail_once t2 iE).trans ht2

/-- C1: two views over the same database state whose recorded value changes
are the same finite map (here literally the same set of records, iterated in
the two possible orders) must produce identical root IDs.  The code violates
this: over the empty parent, recording 0x61 and 0x61 0x62 and computing the
root in the two iteration orders of the changes map yields two different root
IDs, both successfully — in the order that inserts 0x61 0x62 first, inserting
0x61 afterwards makes recordNewNode overwrite the branch node's children with
an empty map, so the subtree holding 0x61 0x62 drops out of the hash. -/
theorem c1_nondeterministic_root :
    viewA.parentTrie = viewB.parentTrie ∧
    viewA.changesValues.Perm viewB.changesValues ∧
    (GetMerkleRoot viewA false).1.isOk = true ∧
    (GetMerkleRoot viewB false).1.isOk = true ∧
    (GetMerkleRoot viewA false).1.toOption ≠ (GetMerkleRoot viewB false).1.toOption :=
  ⟨rfl, by decide, by decide, by decide, by decide⟩

/-- C5: the claim says Compact with a nil limit compacts through the greatest
existing key and performs no work only when the database is empty.  In the
code comparer.Compare(start, nil) is never negative — the nil limit reads as
the key before all keys — so the early no-op return always fires and the
greatest-key adjustment below it is unreachable: on a non-empty database,
Compact(nil, nil) (and any other start) compacts nothing. -/
theorem c5_compact_nil_limit :
    pebbleDBEx.closed = false ∧
    (pebbleDBEx.contents.map (fun kv => kv.1)).getLast? = some [0] ∧
    Compact pebbleDBEx none none = .noop ∧
    Compact pebbleDBEx (some []) none = .noop ∧
    Compact pebbleDBEx (some [1]) none = .noop := by
  decide

/-- C6: removing a key that has no node in the trie (the lookup reports
NotFound, including the tombstone case) or whose node is a nil map returns
success and leaves the view byte-for-byte unchanged; doing it again does the
same, so removal of an absent key is idempotent. -/
theorem c6_remove_absent (t : TrieView) (k : Key)
    (hcalc : t.nodesAlreadyCalculated = false)
    (habsent : getChildren t k = .error .notFound ∨ getChildren t k = .ok none) :
    remove t k = (.ok (), t) ∧ remove (remove t k).2 k = (.ok (), (remove t k).2) := by
  have h1 : remove t k = (.ok (), t) := by
    unfold remove
    rcases habsent with h | h
    · simp [hcalc, h]
    · simp [hcalc, h]
  refine ⟨h1, ?_⟩
  rw [h1]
  exact h1

theorem c6_witness :
    remove validView ⟨[5]⟩ = (.ok (), validView) ∧
    remove (remove validView ⟨[5]⟩).2 ⟨[5]⟩ = (.ok (), (remove validView ⟨[5]⟩).2) :=
  c6_remove_absent validView ⟨[5]⟩ rfl (Or.inl rfl)

/-- C8: once nodesAlreadyCalculated is set, recordValueChange, insert, remove
and compressNodePath all return ErrNodesAlreadyCalculated and leave the view
unchanged. -/
theorem c8_mutation_after_calculation (t : TrieView) (k : Key) (v : Option Bytes)
    (p n : NodeChildren) (pk nk : Key) (h : t.nodesAlreadyCalculated = true) :
    recordValueChange t k v = (.error .nodesAlreadyCalculated, t) ∧
    TrieView.insert t k = (.error .nodesAlreadyCalculated, t) ∧
    remove t k = (.error .nodesAlreadyCalculated, t) ∧
    compressNodePath t p pk n nk = (.error .nodesAlreadyCalculated, t) := by
  refine ⟨?_, ?_, ?_, ?_⟩ <;> simp [recordValueChange, TrieView.insert, remove, compressNodePath, h]

theorem c8_witness :
    recordValueChange calcedView emptyKey none = (.error .nodesAlreadyCalculated, calcedView) ∧
    TrieView.insert calcedView emptyKey = (.error .nodesAlreadyCalculated, calcedView) ∧
    remove calcedView emptyKey = (.error .nodesAlreadyCalculated, calcedView) ∧
    compressNodePath calcedView none emptyKey none emptyKey
      = (.error .nodesAlreadyCalculated, calcedView) :=
  c8_mutation_after_calculation calcedView emptyKey none none none emptyKey emptyKey rfl

/-- C4: getValue returns the view's own recorded after-value when the key is
in the pending value changes, otherwise the parent's value; it returns
ErrInvalid when the view is invalidated at entry, and also when it became
invalidated by the time the parent call returned (the oracle i2 models that
concurrent invalidation; the recorded-change path performs no second
check). -/
theorem c4_getValue (t : TrieView) (k : Key) (i2 : Bool) :
    (t.invalidated = true → getValue t k i2 = .error .invalid) ∧
    (t.invalidated = false → ∀ c, kvLookup t.changesValues k = some c →
        getValue t k i2 = .ok c.after) ∧
    (t.invalidated = false → kvLookup t.changesValues k = none →
      ∀ v, t.parentTrie.getValue k = .ok v →
        (i2 = true → getValue t k i2 = .error .invalid) ∧
        (i2 = false → getValue t k i2 = .ok v)) := by
  refine ⟨?_, ?_, ?_⟩
  · intro h
    simp [getValue, h]
  · intro h c hc
    simp [getValue, h, hc]
  · intro h hn v hv
    refine ⟨?_, ?_⟩ <;> intro hi <;> simp [getValue, h, hn, hv, hi]

theorem c4_witness :
    getValue invalidView emptyKey false = .error .invalid ∧
    getValue viewA ⟨[0x61]⟩ false = .ok (some [0x31]) ∧
    getValue viewA ⟨[9]⟩ true = .error .invalid ∧
    getValue viewA ⟨[9]⟩ false = .ok none :=
  ⟨(c4_getValue invalidView emptyKey false).1 rfl,
   (c4_getValue viewA ⟨[0x61]⟩ false).2.1 rfl _ rfl,
   ((c4_getValue viewA ⟨[9]⟩ true).2.2 rfl rfl none rfl).1 rfl,
   ((c4_getValue viewA ⟨[9]⟩ false).2.2 rfl rfl none rfl).2 rfl⟩

/-- C9, counterexample: the first calculateNodeIDs on this valid view fails
only its final invalidation re-check (the invAtEnd oracle set), so it returns
an error — yet the root ID was computed and stored, contradicting the claim
that after an erroring first invocation no root ID has been computed. -/
theorem c9_counterexample :
    validView.calculateOnceDone = false ∧
    (calculateNodeIDs validView true).1 = .error .invalid ∧
    validView.rootID = idsEmpty ∧
    (calculateNodeIDs validView true).2.rootID ≠ idsEmpty :=
  ⟨rfl, rfl, rfl, by decide⟩

/-- C9 (amended): calculateNodeIDs runs its body at most once; whatever error
the first invocation returned, every later invocation returns nil without
retrying and without touching the view again, so the first error is reported
only to the first caller and is not sticky; when the first invocation failed
its entry invalidation check, the view shows no trace of the computation (in
particular no root ID); when it failed only the final re-check, the root ID
had already been computed and stored (see the counterexample). -/
theorem c9_amended (t : TrieView) (iE : Bool) (e : Err)
    (h0 : t.calculateOnceDone = false)
    (herr : (calculateNodeIDs t iE).1 = .error e) :
    (∀ iE2, calculateNodeIDs (calculateNodeIDs t iE).2 iE2
        = (.ok (), (calculateNodeIDs t iE).2)) ∧
    (t.invalidated = true → (calculateNodeIDs t iE).2 = { t with calculateOnceDone := true }) := by
  refine ⟨?_, ?_⟩
  · intro iE2
    exact calculateNodeIDs_done _ iE2 (calculateNodeIDs_onceSet t iE h0)
  · intro hinv
    simp [calculateNodeIDs, h0, hinv]

theorem c9_witness :
    calculateNodeIDs (calculateNodeIDs invalidView true).2 false
      = (.ok (), (calculateNodeIDs invalidView true).2) ∧
    (calculateNodeIDs invalidView true).2 = { invalidView with calculateOnceDone := true } :=
  ⟨(c9_amended invalidView true .invalid rfl rfl).1 false,
   (c9_amended invalidView true .invalid rfl rfl).2 rfl⟩

/-- C7, counterexample: a call with maxLength 0 and bounded start above
bounded end returns ErrStartAfterEnd, not ErrInvalidMaxLength, so the claim
that InvalidMaxLength is returned whenever maxLength is nonpositive fails. -/
theorem c7_counterexample :
    ((0 : Int) ≤ 0) ∧
    (GetRangeProof validView (some [1]) (some [0]) 0).1 = .error .startAfterEnd ∧
    Err.startAfterEnd ≠ Err.invalidMaxLength :=
  ⟨by decide, rfl, by decide⟩

/-- C7 (amended): GetRangeProof returns ErrStartAfterEnd whenever both bounds
are present with start above end — this check runs first — and returns
ErrInvalidMaxLength whenever maxLength is nonpositive and the start/end check
did not already fail; in both cases no proof is produced and the view is
returned unchanged. -/
theorem c7_amended (t : TrieView) (s e : Option Bytes) (m : Int) :
    (s.isSome ∧ e.isSome ∧ bytesCompare (s.getD []) (e.getD []) = 1 →
      GetRangeProof t s e m = (.error .startAfterEnd, t)) ∧
    (m ≤ 0 → ¬(s.isSome ∧ e.isSome ∧ bytesCompare (s.getD []) (e.getD []) = 1) →
      GetRangeProof t s e m = (.error .invalidMaxLength, t)) := by
  refine ⟨?_, ?_⟩
  · intro h
    simp [GetRangeProof, h]
  · intro hm hn
    simp [GetRangeProof, hn, hm]

theorem c7_witness :
    GetRangeProof validView (some [1]) (some [0]) 5 = (.error .startAfterEnd, validView) ∧
    GetRangeProof validView none none 0 = (.error .invalidMaxLength, validView) :=
  ⟨(c7_amended validView (some [1]) (some [0]) 5).1 (by decide),
   (c7_amended validView none none 0).2 (by decide) (by decide)⟩

theorem kvLookup_kvSet_self {β : Type} (l : List (Key × β)) (k : Key) (v : β) :
    kvLookup (kvSet l k v) k = some v := by
  induction l with
  | nil => simp [kvSet, kvLookup]
  | cons p rest ih =>
      by_cases h : p.1 = k
      · simp [kvSet, kvLookup, h]
      · simp [kvSet, kvLookup, h, ih]

theorem kvLookup_kvSet_ne {β : Type} (l : List (Key × β)) (k k2 : Key) (v : β) (h : k2 ≠ k) :
    kvLookup (kvSet l k v) k2 = kvLookup l k2 := by
  induction l with
  | nil => simp [kvSet, kvLookup, Ne.symm h]
  | cons p rest ih =>
      by_cases hp : p.1 = k
      · subst hp
        simp [kvSet, kvLookup, Ne.symm h]
      · simp [kvSet, kvLookup, hp, ih]

theorem recordValueChange_stable (t : TrieView) (k : Key) (v : Option Bytes) :
    (recordValueChange t k v).2.nodesAlreadyCalculated = t.nodesAlreadyCalculated ∧
    (recordValueChange t k v).2.parentTrie = t.parentTrie ∧
    (recordValueChange t k v).2.invalidated = t.invalidated := by
  unfold recordValueChange
  split
  · exact ⟨rfl, rfl, rfl⟩
  · split
    · exact ⟨rfl, rfl, rfl⟩
    · split
      · exact ⟨rfl, rfl, rfl⟩
      · exact ⟨rfl, rfl, rfl⟩

theorem recordSeq_stable : ∀ (ops : List (Key × Option Bytes)) (t : TrieView),
    (recordSeq t ops).nodesAlreadyCalculated = t.nodesAlreadyCalculated ∧
    (recordSeq t ops).parentTrie = t.parentTrie ∧
    (recordSeq t ops).invalidated = t.invalidated
  | [], t => ⟨rfl, rfl, rfl⟩
  | (k, v) :: rest, t => by
      have h1 := recordValueChange_stable t k v
      have h2 := recordSeq_stable rest (recordValueChange t k v).2
      exact ⟨h2.1.trans h1.1, h2.2.1.trans h1.2.1, h2.2.2.trans h1.2.2⟩

theorem recordSeq_append (t : TrieView) : ∀ (l1 l2 : List (Key × Option Bytes)),
    recordSeq t (l1 ++ l2) = recordSeq (recordSeq t l1) l2 := by
  intro l1
  induction l1 generalizing t with
  | nil => intro l2; rfl
  | cons p rest ih => intro l2; exact ih (recordValueChange t p.1 p.2).2 l2

theorem recordValueChange_lookup (t : TrieView) (k : Key) (v : Option Bytes) (pv : Option Bytes)
    (hcalc : t.nodesAlreadyCalculated = false) (hv : t.parentTrie.getValue k = .ok pv) :
    kvLookup (recordValueChange t k v).2.changesValues k =
      (match kvLookup t.changesValues k with
       | some c => some { c with after := v }
       | none => some { before := pv, after := v }) := by
  unfold recordValueChange
  simp only [hcalc, Bool.false_eq_true, if_false]
  split
  · next c heq => simp [heq, kvLookup_kvSet_self]
  · next heq => simp [heq, hv, kvLookup_kvSet_self]

theorem recordValueChange_lookup_ne (t : TrieView) (k2 : Key) (v : Option Bytes) (k : Key)
    (h : k ≠ k2) :
    kvLookup (recordValueChange t k2 v).2.changesValues k = kvLookup t.changesValues k := by
  unfold recordValueChange
  split
  · rfl
  · split
    · simp [kvLookup_kvSet_ne _ _ _ _ h]
    · split
      · rfl
      · simp [kvLookup_kvSet_ne _ _ _ _ h]

theorem lastRecorded_concat_self (k : Key) (l : List (Key × Option Bytes)) (v : Option Bytes) :
    lastRecorded k (l ++ [(k, v)]) = some v := by
  unfold lastRecorded
  rw [List.filter_append]
  simp [List.getLast?_concat]

theorem lastRecorded_concat_ne (k k2 : Key) (l : List (Key × Option Bytes)) (v : Option Bytes)
    (h : k2 ≠ k) :
    lastRecorded k (l ++ [(k2, v)]) = lastRecorded k l := by
  unfold lastRecorded
  rw [List.filter_append]
  simp [h]

/-- The running invariant behind C10: after any sequence of recordValueChange
calls, the record for k carries as before the parent value frozen at the first
record (or the before already present), and as after the value of the last
call for k. -/
theorem recordSeq_lookup (t : TrieView) (k : Key) (pv : Option Bytes)
    (hcalc : t.nodesAlreadyCalculated = false)
    (hpv : t.parentTrie.getValue k = .ok pv) :
    ∀ (ops : List (Key × Option Bytes)),
      kvLookup (recordSeq t ops).changesValues k =
        (match lastRecorded k ops with
         | none => kvLookup t.changesValues k
         | some lv =>
            some { before :=
                     (match kvLookup t.changesValues k with
                      | some c => c.before
                      | none => pv),
                   after := lv }) := by
  intro ops
  induction ops using List.reverseRecOn with
  | nil => rfl
  | append_singleton l p ih =>
      obtain ⟨k2, v2⟩ := p
      have hrw : recordSeq t (l ++ [(k2, v2)]) = (recordValueChange (recordSeq t l) k2 v2).2 := by
        rw [recordSeq_append]
        rfl
      by_cases hk : k2 = k
      · subst hk
        rw [hrw, lastRecorded_concat_self]
        have hc2 : (recordSeq t l).nodesAlreadyCalculated = false :=
          (recordSeq_stable l t).1.trans hcalc
        have hp2 : (recordSeq t l).parentTrie.getValue k2 = .ok pv := by
          rw [(recordSeq_stable l t).2.1]
          exact hpv
        rw [recordValueChange_lookup _ _ _ _ hc2 hp2, ih]
        rcases hl : lastRecorded k2 l with _ | lv
        · rcases hv : kvLookup t.changesValues k2 with _ | c
          · rfl
          · rfl
        · rcases hv : kvLookup t.changesValues k2 with _ | c
          · rfl
          · rfl
      · rw [hrw, lastRecorded_concat_ne _ _ _ _ hk,
          recordValueChange_lookup_ne _ _ _ _ (fun hh => hk hh.symm), ih]

/-- C10: after any sequence of recordValueChange calls on a view, the change
record of a key that was recorded at least once has before equal to the parent
trie's value for that key (frozen at the first record) and after equal to the
value of the most recent call — so the view's final value state depends only
on the last recorded value per key. -/
theorem c10_recordValueChange (t : TrieView) (k : Key) (pv : Option Bytes)
    (ops : List (Key × Option Bytes)) (lv : Option Bytes)
    (hcalc : t.nodesAlreadyCalculated = false)
    (h0 : kvLookup t.changesValues k = none)
    (hpv : t.parentTrie.getValue k = .ok pv)
    (hlast : lastRecorded k ops = some lv) :
    kvLookup (recordSeq t ops).changesValues k = some { before := pv, after := lv } := by
  rw [recordSeq_lookup t k pv hcalc hpv ops, hlast, h0]

theorem c10_witness :
    kvLookup
      (recordSeq validView
        [(⟨[1]⟩, some [5]), (⟨[2]⟩, some [6]), (⟨[1]⟩, some [7])]).changesValues ⟨[1]⟩
      = some { before := none, after := some [7] } :=
  c10_recordValueChange validView ⟨[1]⟩ none
    [(⟨[1]⟩, some [5]), (⟨[2]⟩, some [6]), (⟨[1]⟩, some [7])] (some [7]) rfl rfl rfl rfl

theorem getProof_invalid (t : TrieView) (kb : Bytes) (h : t.invalidated = true) :
    getProof t kb = .error .invalid := by
  unfold getProof
  simp [visitPathToKey, getProofFold, getValue, h]

theorem GetProof_invalid (t : TrieView) (kb : Bytes) (h : t.invalidated = true) :
    (GetProof t kb).1 = .error .invalid := by
  unfold GetProof
  cases h0 : t.calculateOnceDone
  · have hc : calculateNodeIDs t false = (.error .invalid, { t with calculateOnceDone := true }) := by
      simp [calculateNodeIDs, h0, h]
    rw [hc]
  · rw [calculateNodeIDs_done t false h0]
    dsimp only
    rw [getProof_invalid t kb h]

theorem rangeAssemble_state (t1 : TrieView) (kvs : List (Bytes × Bytes))
    (sp ep : List ProofNode) : (rangeAssemble t1 kvs sp ep).2 = t1 := by
  unfold rangeAssemble
  split
  · split
    · rfl
    · split
      · rfl
      · rfl
  · split
    · rfl
    · rfl

theorem rangeAfterCalc_state (t1 : TrieView) (s e : Option Bytes) (m : Int) :
    (rangeAfterCalc t1 s e m).2 = t1 := by
  unfold rangeAfterCalc
  split
  · rfl
  · split
    · rfl
    · exact rangeAssemble_state t1 _ _ _

theorem rangeAfterCalc_invalid (t1 : TrieView) (s e : Option Bytes) (m : Int)
    (h : t1.invalidated = true) : (rangeAfterCalc t1 s e m).1 = .error .invalid := by
  unfold rangeAfterCalc
  cases hL : (rangeKeyValues t1 s e m).getLast? with
  | some kv =>
      have hend : computeEndProof t1 (rangeKeyValues t1 s e m) e = .error .invalid := by
        unfold computeEndProof
        rw [hL]
        dsimp only
        rw [getProof_invalid t1 kv.1 h]
      rw [hend]
  | none =>
      cases e with
      | some eb =>
          have hend : computeEndProof t1 (rangeKeyValues t1 s (some eb) m) (some eb)
              = .error .invalid := by
            unfold computeEndProof
            rw [hL]
            dsimp only
            rw [getProof_invalid t1 eb h]
          rw [hend]
      | none =>
          have hend : computeEndProof t1 (rangeKeyValues t1 s none m) none = .ok none := by
            unfold computeEndProof
            rw [hL]
          rw [hend]
          cases s with
          | some sb =>
              have hst : computeStartPath t1 (some sb) (optPath none) = .error .invalid := by
                unfold computeStartPath
                dsimp only
                rw [getProof_invalid t1 sb h]
              dsimp only
              rw [hst]
          | none =>
              have hkv : rangeKeyValues t1 none none m = [] :=
                List.getLast?_eq_none_iff.mp hL
              have hst : computeStartPath t1 none (optPath none) = .ok [] := rfl
              dsimp only
              rw [hst]
              dsimp only
              unfold rangeAssemble
              rw [hkv]
              simp [optPath, getProof_invalid t1 rootKeyBytes h]

theorem GetRangeProof_invalid (t : TrieView) (s e : Option Bytes) (m : Int)
    (h : t.invalidated = true)
    (hargs : ¬ (s.isSome ∧ e.isSome ∧ bytesCompare (s.getD []) (e.getD []) = 1))
    (hm : ¬ m ≤ 0) :
    (GetRangeProof t s e m).1 = .error .invalid := by
  unfold GetRangeProof
  rw [if_neg hargs, if_neg hm]
  cases h0 : t.calculateOnceDone
  · have hc : calculateNodeIDs t false = (.error .invalid, { t with calculateOnceDone := true }) := by
      simp [calculateNodeIDs, h0, h]
    rw [hc]
  · rw [calculateNodeIDs_done t false h0]
    exact rangeAfterCalc_invalid t s e m h

mutual
theorem invalidate_eq : ∀ (T : ViewTree),
    invalidate T
      = (allViews T).map (fun st => ViewTree.node ({ st with invalidated := true }) [])
  | .node st cs => by
      rw [invalidate, allViews, List.map_cons, invalidateChildren_eq cs]
theorem invalidateChildren_eq : ∀ (L : List ViewTree),
    invalidateChildren L
      = (allViewsChildren L).map (fun st => ViewTree.node ({ st with invalidated := true }) [])
  | [] => by rw [invalidateChildren, allViewsChildren]; rfl
  | c :: cs => by
      rw [invalidateChildren, allViewsChildren, List.map_append, invalidate_eq c,
        invalidateChildren_eq cs]
end

theorem NewView_state_inv (t : TrieView) (ch : List (Key × Option Bytes)) :
    (NewView t ch).2.invalidated = t.invalidated := by
  unfold NewView
  split
  · rfl
  · split
    · split
      · rfl
      · rfl
    · have hc := calculateNodeIDs_core t false
      generalize hg : calculateNodeIDs t false = res at hc ⊢
      obtain ⟨r, t1⟩ := res
      cases r with
      | error e => exact hc.2.1
      | ok u =>
          dsimp only
          split
          · exact hc.2.1
          · split
            · exact hc.2.1
            · exact hc.2.1

theorem GetProof_state_inv (t : TrieView) (kb : Bytes) :
    (GetProof t kb).2.invalidated = t.invalidated := by
  unfold GetProof
  have hc := calculateNodeIDs_core t false
  generalize hg : calculateNodeIDs t false = res at hc ⊢
  obtain ⟨r, t1⟩ := res
  cases r with
  | error e => exact hc.2.1
  | ok u =>
      dsimp only
      split
      · exact hc.2.1
      · exact hc.2.1

theorem GetRangeProof_state_inv (t : TrieView) (s e : Option Bytes) (m : Int) :
    (GetRangeProof t s e m).2.invalidated = t.invalidated := by
  unfold GetRangeProof
  split
  · rfl
  · split
    · rfl
    · have hc := calculateNodeIDs_core t false
      generalize hg : calculateNodeIDs t false = res at hc ⊢
      obtain ⟨r, t1⟩ := res
      cases r with
      | error e => exact hc.2.1
      | ok u =>
          dsimp only
          rw [rangeAfterCalc_state]
          exact hc.2.1

/-- C2 (amended): invalidate marks the view and every view reachable through
the child registry, clearing each reached view's child list and changing
nothing else about its state; on an invalidated view getValue, getChildren,
NewView and GetProof return ErrInvalid, and GetRangeProof returns ErrInvalid
whenever its argument validation does not already fail (start > end yields
StartAfterEnd and nonpositive maxLength yields InvalidMaxLength, both checked
before the invalidation flag); and no operation ever clears the invalidated
flag. -/
theorem c2_invalidate_amended (T : ViewTree) (t : TrieView) (k : Key) (kb : Bytes) (i2 : Bool)
    (ch : List (Key × Option Bytes)) (s e : Option Bytes) (m : Int) (v : Option Bytes)
    (p n : NodeChildren) (pk nk : Key)
    (hinv : t.invalidated = true)
    (hargs : ¬ (s.isSome ∧ e.isSome ∧ bytesCompare (s.getD []) (e.getD []) = 1))
    (hm : ¬ m ≤ 0) :
    invalidate T
      = (allViews T).map (fun st => ViewTree.node ({ st with invalidated := true }) []) ∧
    getValue t k i2 = .error .invalid ∧
    getChildren t k = .error .invalid ∧
    (NewView t ch).1 = .error .invalid ∧
    (GetProof t kb).1 = .error .invalid ∧
    (GetRangeProof t s e m).1 = .error .invalid ∧
    (recordValueChange t k v).2.invalidated = true ∧
    (TrieView.insert t k).2.invalidated = true ∧
    (remove t k).2.invalidated = true ∧
    (compressNodePath t p pk n nk).2.invalidated = true ∧
    (calculateNodeIDs t i2).2.invalidated = true ∧
    (NewView t ch).2.invalidated = true ∧
    (GetProof t kb).2.invalidated = true ∧
    (GetRangeProof t s e m).2.invalidated = true := by
  refine ⟨invalidate_eq T, ?_, ?_, ?_, ?_, ?_, ?_, ?_, ?_, ?_, ?_, ?_, ?_, ?_⟩
  · simp [getValue, hinv]
  · simp [getChildren, hinv]
  · simp [NewView, hinv]
  · exact GetProof_invalid t kb hinv
  · exact GetRangeProof_invalid t s e m hinv hargs hm
  · exact (recordValueChange_stable t k v).2.2.trans hinv
  · exact (insert_edits t k).2.2.2.1.trans hinv
  · exact (remove_edits t k).2.2.2.1.trans hinv
  · exact (compressNodePath_edits t p pk n nk).2.2.2.1.trans hinv
  · exact (calculateNodeIDs_core t i2).2.1.trans hinv
  · exact (NewView_state_inv t ch).trans hinv
  · exact (GetProof_state_inv t kb).trans hinv
  · exact (GetRangeProof_state_inv t s e m).trans hinv

/-- C2, counterexample: a view invalidated by the cascade still answers a
malformed GetRangeProof call with ErrStartAfterEnd, not ErrInvalid, so
"every subsequent public operation returns the Invalid error" fails as
stated. -/
theorem c2_counterexample :
    invalidate (ViewTree.node validView []) = [ViewTree.node invalidView []] ∧
    invalidView.invalidated = true ∧
    (GetRangeProof invalidView (some [1]) (some [0]) 1).1 = .error .startAfterEnd ∧
    Err.startAfterEnd ≠ Err.invalid :=
  ⟨rfl, rfl, rfl, by decide⟩

theorem c2_witness :
    invalidate (ViewTree.node validView [])
      = (allViews (ViewTree.node validView [])).map
          (fun st => ViewTree.node ({ st with invalidated := true }) []) ∧
    getValue invalidView emptyKey false = .error .invalid ∧
    getChildren invalidView emptyKey = .error .invalid ∧
    (NewView invalidView []).1 = .error .invalid ∧
    (GetProof invalidView []).1 = .error .invalid ∧
    (GetRangeProof invalidView none none 1).1 = .error .invalid ∧
    (calculateNodeIDs invalidView false).2.invalidated = true :=
  have h := c2_invalidate_amended (ViewTree.node validView []) invalidView emptyKey [] false []
    none none 1 none none none emptyKey emptyKey rfl (by decide) (by decide)
  ⟨h.1, h.2.1, h.2.2.1, h.2.2.2.1, h.2.2.2.2.1, h.2.2.2.2.2.1, h.2.2.2.2.2.2.2.2.2.2.1⟩

theorem bytesCompare_swap : ∀ (a b : Bytes), bytesCompare b a = -bytesCompare a b
  | [], [] => by simp [bytesCompare]
  | [], _ :: _ => by simp [bytesCompare]
  | _ :: _, [] => by simp [bytesCompare]
  | a :: as, b :: bs => by
      simp only [bytesCompare]
      split_ifs <;> first | omega | exact bytesCompare_swap as bs

theorem rangeLoop_sublist : ∀ (l : List (Bytes × Bytes)) (e : Option Bytes) (n : Nat),
    List.Sublist (rangeLoop l e n) l
  | [], _, _ => by simp [rangeLoop]
  | _ :: _, _, 0 => by simp [rangeLoop]
  | kv :: rest, e, n + 1 => by
      unfold rangeLoop
      cases e with
      | some eb =>
          dsimp only
          split
          · exact List.Sublist.cons₂ kv (rangeLoop_sublist rest (some eb) n)
          · exact List.nil_sublist _
      | none => exact List.Sublist.cons₂ kv (rangeLoop_sublist rest none n)

theorem rangeLoop_length : ∀ (l : List (Bytes × Bytes)) (e : Option Bytes) (n : Nat),
    (rangeLoop l e n).length ≤ n
  | [], _, _ => by simp [rangeLoop]
  | _ :: _, _, 0 => by simp [rangeLoop]
  | kv :: rest, e, n + 1 => by
      unfold rangeLoop
      cases e with
      | some eb =>
          dsimp only
          split
          · simpa using rangeLoop_length rest (some eb) n
          · simp
      | none => simpa using rangeLoop_length rest none n

theorem rangeLoop_le_end : ∀ (l : List (Bytes × Bytes)) (eb : Bytes) (n : Nat)
    (kv : Bytes × Bytes), kv ∈ rangeLoop l (some eb) n → bytesCompare kv.1 eb ≤ 0
  | [], eb, n, kv => by simp [rangeLoop]
  | _ :: _, eb, 0, kv => by simp [rangeLoop]
  | p :: rest, eb, n + 1, kv => by
      unfold rangeLoop
      dsimp only
      split
      · next hcond =>
          intro hm
          rcases List.mem_cons.mp hm with h | h
          · rw [h]
            exact hcond
          · exact rangeLoop_le_end rest eb n kv h
      · intro hm
        simp at hm

theorem viewPairs_congr (a b : TrieView) (h1 : a.parentTrie = b.parentTrie)
    (h2 : a.changesValues = b.changesValues) : viewPairs a = viewPairs b := by
  unfold viewPairs
  rw [h1, h2]

/-- The spec-modelled iterator yields strictly ascending keys when the view's
final pairs carry no duplicate key. -/
theorem iter_sorted (t1 : TrieView) (st : Bytes)
    (hnd : ((viewPairs t1).map (fun kv => kv.1)).Nodup) :
    List.Pairwise (fun a b : Bytes × Bytes => bytesCompare a.1 b.1 = -1)
      (NewIteratorWithStart t1 st) := by
  unfold NewIteratorWithStart
  apply List.Pairwise.sublist (List.filter_sublist _)
  have h1 : List.Pairwise (fun a b : Bytes × Bytes => bytesCompare a.1 b.1 ≤ 0)
      (List.insertionSort (fun a b => bytesCompare a.1 b.1 ≤ 0) (viewPairs t1)) :=
    @List.sorted_insertionSort _ _ _
      ⟨fun a b => by
        rcases bytesCompare_cases a.1 b.1 with h | h | h
        · left; omega
        · left; omega
        · right
          rw [bytesCompare_swap]
          omega⟩
      ⟨fun a b c hab hbc => bytesCompare_trans a.1 b.1 c.1 hab hbc⟩
      (viewPairs t1)
  have hperm :=
    List.perm_insertionSort (fun a b : Bytes × Bytes => bytesCompare a.1 b.1 ≤ 0) (viewPairs t1)
  have hnd1 : (((List.insertionSort (fun a b : Bytes × Bytes => bytesCompare a.1 b.1 ≤ 0)
      (viewPairs t1))).map (fun kv => kv.1)).Nodup :=
    ((hperm.map _).nodup_iff).mpr hnd
  have h2 := List.pairwise_map.mp hnd1
  exact (h1.and h2).imp (fun hab => bytesCompare_neg_of_le_of_ne _ _ hab.1 hab.2)

theorem iter_start_le (t1 : TrieView) (st : Bytes) (kv : Bytes × Bytes)
    (h : kv ∈ NewIteratorWithStart t1 st) : bytesCompare st kv.1 ≤ 0 := by
  unfold NewIteratorWithStart at h
  have h2 := (List.mem_filter.mp h).2
  simpa using h2

theorem getProofFold_path : ∀ (l : List (Key × NodeChildren)) (t : TrieView) (st st' : ProofWalk),
    getProofFold t st l = .ok st' → st'.path.length = st.path.length + l.length
  | [], t, st, st' => by
      intro h
      unfold getProofFold at h
      injection h with h
      subst h
      simp
  | (k, cs) :: rest, t, st, st' => by
      intro h
      unfold getProofFold at h
      split at h
      · simp at h
      · have h2 := getProofFold_path rest t _ st' h
        simp only [List.length_append, List.length_cons, List.length_nil] at h2 ⊢
        omega

theorem visitPathToKey_length (t : TrieView) (key : Key) :
    0 < (visitPathToKey t key).1.length := by
  simp [visitPathToKey]

theorem getProof_path_ne_nil (t : TrieView) (kb : Bytes) (p : Proof)
    (h : getProof t kb = .ok p) : p.path ≠ [] := by
  unfold getProof at h
  cases hf : getProofFold t
      { closestKey := emptyKey, closestChildren := none, closestValue := none, path := [] }
      (visitPathToKey t (ToKey kb)).1 with
  | error e =>
      rw [hf] at h
      simp at h
  | ok walk =>
      rw [hf] at h
      dsimp only at h
      have hlen := getProofFold_path _ _ _ _ hf
      simp only [List.length_nil, Nat.zero_add] at hlen
      have hwalk : walk.path ≠ [] := by
        have hpos := visitPathToKey_length t (ToKey kb)
        intro hnil
        rw [hnil] at hlen
        simp at hlen
        omega
      cases hv : (visitPathToKey t (ToKey kb)).2 with
      | some e =>
          rw [hv] at h
          simp at h
      | none =>
          rw [hv] at h
          dsimp only at h
          unfold getProofFromWalk at h
          split at h
          · injection h with h
            subst h
            exact hwalk
          · split at h
            · injection h with h
              subst h
              exact hwalk
            · unfold getProofChild at h
              split at h
              · simp at h
              · split at h
                · simp at h
                · split at h
                  · simp at h
                  · injection h with h
                    subst h
                    simp

/-- C3: when GetRangeProof succeeds, the returned proof's KeyValues are in
strictly ascending key order, every key lies within the requested start and
end bounds, and there are at most maxLength of them; the EndProof is the proof
path for the greatest returned key when KeyValues is non-empty, and for end
when KeyValues is empty and end is bounded.  The nodup hypothesis is the
well-formedness of the view's final pairs (no duplicate keys). -/
theorem c3_range_proof (t : TrieView) (s e : Option Bytes) (m : Int)
    (rp : RangeProof) (t' : TrieView)
    (hnd : ((viewPairs t).map (fun kv => kv.1)).Nodup)
    (hok : GetRangeProof t s e m = (.ok rp, t')) :
    List.Pairwise (fun a b : Bytes × Bytes => bytesCompare a.1 b.1 = -1) rp.keyValues ∧
    (∀ kv ∈ rp.keyValues,
      (∀ sb, s = some sb → bytesCompare sb kv.1 ≤ 0) ∧
      (∀ eb, e = some eb → bytesCompare kv.1 eb ≤ 0)) ∧
    ((rp.keyValues.length : Int) ≤ m) ∧
    (∀ kvL, rp.keyValues.getLast? = some kvL →
      ∃ p, getProof t' kvL.1 = .ok p ∧ rp.endProof = p.path) ∧
    (rp.keyValues = [] → ∀ eb, e = some eb →
      ∃ p, getProof t' eb = .ok p ∧ rp.endProof = p.path) := by
  unfold GetRangeProof at hok
  split at hok
  · simp at hok
  · split at hok
    · simp at hok
    · rename_i hm
      have hcs := calculateNodeIDs_core t false
      generalize hg : calculateNodeIDs t false = res at hcs hok
      obtain ⟨r, t1⟩ := res
      cases r with
      | error e0 => simp at hok
      | ok u =>
        dsimp only at hok
        have hvp : viewPairs t1 = viewPairs t := viewPairs_congr _ _ hcs.2.2.1 hcs.2.2.2
        have hnd1 : ((viewPairs t1).map (fun kv => kv.1)).Nodup := by
          rw [hvp]
          exact hnd
        have hsort := iter_sorted t1 (s.getD []) hnd1
        have hkv_pair : List.Pairwise (fun a b : Bytes × Bytes => bytesCompare a.1 b.1 = -1)
            (rangeKeyValues t1 s e m) := by
          unfold rangeKeyValues
          exact hsort.sublist (rangeLoop_sublist _ _ _)
        have hkv_mem : ∀ kv ∈ rangeKeyValues t1 s e m, kv ∈ NewIteratorWithStart t1 (s.getD []) := by
          intro kv hkv
          unfold rangeKeyValues at hkv
          exact (rangeLoop_sublist _ _ _).mem hkv
        have hkv_len : (rangeKeyValues t1 s e m).length ≤ m.toNat := by
          unfold rangeKeyValues
          exact rangeLoop_length _ _ _
        have hkv_end : ∀ eb, e = some eb → ∀ kv ∈ rangeKeyValues t1 s e m,
            bytesCompare kv.1 eb ≤ 0 := by
          intro eb he kv hkv
          subst he
          unfold rangeKeyValues at hkv
          exact rangeLoop_le_end _ _ _ _ hkv
        unfold rangeAfterCalc at hok
        cases hep : computeEndProof t1 (rangeKeyValues t1 s e m) e with
        | error e1 =>
            rw [hep] at hok
            simp at hok
        | ok endProof =>
          rw [hep] at hok
          dsimp only at hok
          cases hsp : computeStartPath t1 s (optPath endProof) with
          | error e2 =>
              rw [hsp] at hok
              simp at hok
          | ok startPath =>
            rw [hsp] at hok
            dsimp only at hok
            unfold rangeAssemble at hok
            split at hok
            · rename_i hempty
              split at hok
              · simp at hok
              · rename_i rootProof
                split at hok
                · simp at hok
                · rw [Prod.mk.injEq] at hok
                  obtain ⟨h1, ht'⟩ := hok
                  injection h1 with h1
                  subst h1
                  subst ht'
                  have hkvnil : rangeKeyValues t1 s e m = [] := hempty.2.2
                  refine ⟨?_, ?_, ?_, ?_, ?_⟩
                  · show List.Pairwise _ (rangeKeyValues t1 s e m)
                    exact hkv_pair
                  · intro kv hkv
                    have hkv' : kv ∈ rangeKeyValues t1 s e m := hkv
                    rw [hkvnil] at hkv'
                    simp at hkv'
                  · show ((rangeKeyValues t1 s e m).length : Int) ≤ m
                    rw [hkvnil]
                    simp
                    omega
                  · intro kvL hlast
                    have hlast' : (rangeKeyValues t1 s e m).getLast? = some kvL := hlast
                    rw [hkvnil] at hlast'
                    simp at hlast'
                  · intro hnil eb he
                    subst he
                    unfold computeEndProof at hep
                    rw [hkvnil] at hep
                    simp only [List.getLast?_nil] at hep
                    cases hgp : getProof t1 eb with
                    | error e3 =>
                        rw [hgp] at hep
                        simp at hep
                    | ok p =>
                        rw [hgp] at hep
                        injection hep with hep
                        exfalso
                        apply getProof_path_ne_nil t1 eb p hgp
                        have hopt : optPath endProof = [] := hempty.2.1
                        rw [← hep] at hopt
                        exact hopt
            · split at hok
              · simp at hok
              · rw [Prod.mk.injEq] at hok
                obtain ⟨h1, ht'⟩ := hok
                injection h1 with h1
                subst h1
                subst ht'
                refine ⟨?_, ?_, ?_, ?_, ?_⟩
                · exact hkv_pair
                · intro kv hkv
                  refine ⟨?_, ?_⟩
                  · intro sb hs
                    have h2 := iter_start_le t1 (s.getD []) kv (hkv_mem kv hkv)
                    subst hs
                    simpa using h2
                  · intro eb he
                    exact hkv_end eb he kv hkv
                · show ((rangeKeyValues t1 s e m).length : Int) ≤ m
                  omega
                · intro kvL hlast
                  have hlast' : (rangeKeyValues t1 s e m).getLast? = some kvL := hlast
                  unfold computeEndProof at hep
                  rw [hlast'] at hep
                  dsimp only at hep
                  cases hgp : getProof t1 kvL.1 with
                  | error e3 =>
                      rw [hgp] at hep
                      simp at hep
                  | ok p =>
                      rw [hgp] at hep
                      injection hep with hep
                      refine ⟨p, rfl, ?_⟩
                      show optPath endProof = p.path
                      rw [← hep]
                      rfl
                · intro hnil eb he
                  subst he
                  have hnil' : rangeKeyValues t1 s (some eb) m = [] := hnil
                  unfold computeEndProof at hep
                  rw [hnil'] at hep
                  simp only [List.getLast?_nil] at hep
                  cases hgp : getProof t1 eb with
                  | error e3 =>
                      rw [hgp] at hep
                      simp at hep
                  | ok p =>
                      rw [hgp] at hep
                      injection hep with hep
                      refine ⟨p, rfl, ?_⟩
                      show optPath endProof = p.path
                      rw [← hep]
                      rfl

theorem c3_witness :
    GetRangeProof viewA (some [0x61]) (some [0x63]) 5 = (.ok c3rp, c3t) ∧
    List.Pairwise (fun a b : Bytes × Bytes => bytesCompare a.1 b.1 = -1) c3rp.keyValues ∧
    ((c3rp.keyValues.length : Int) ≤ 5) ∧
    (∃ p, getProof c3t [0x61, 0x62] = .ok p ∧ c3rp.endProof = p.path) :=
  have h := c3_range_proof viewA (some [0x61]) (some [0x63]) 5 c3rp c3t (by decide) rfl
  ⟨rfl, h.1, h.2.2.1, h.2.2.2.1 ([0x61, 0x62], [0x32]) (by decide)⟩
